import Mathlib

/-!
Verification of the blogpost sphinx-extension's aggregation core.

The definitions below are a shallow embedding of the Python sources:

* `src/blogpost/__init__.py` — `build_category_info`, `build_tag_info`,
  `build_archive_info`, `add_next_prev`;
* `src/blogpost/blogpostdirective.py` — `shorten_text`, `cvs_to_list`,
  `BlogPostDirective.run`, `BlogCategoryDirective.run`,
  `BlogTagDirective.run`, `BlogArchiveDirective.run`,
  `BlogRecentDirective.run`.

Python dictionaries keyed by category/tag/year are modelled as association
lists in key-insertion order; Python's `sorted(items, key=..., reverse=True)`
(Timsort, stable, descending) is modelled by the stable insertion sort
`sortWith` below; Python string comparison (lexicographic on code points)
is modelled by `lexLt` on the character list.  `datetime` values are
abstracted to a `Nat` sort key, since every use in the aggregation layer
only compares them.
-/

/-- Stable insertion of `x` behind every earlier element `y` that `x` must
follow (`after x y = true`).  With `after x y := x.time < y.time` this is one
step of a stable descending sort; equal elements keep their original order
because `x` is placed in front of the first element it need not follow. -/
def insertSorted (after : α → α → Bool) (x : α) : List α → List α
  | [] => [x]
  | y :: ys => if after x y then y :: insertSorted after x ys else x :: y :: ys

/-- Stable sort: model of Python's stable `sorted` under the comparison
encoded by `after` (see `insertSorted`). -/
def sortWith (after : α → α → Bool) : List α → List α
  | [] => []
  | x :: xs => insertSorted after x (sortWith after xs)

theorem insertSorted_perm (after : α → α → Bool) (x : α) (l : List α) :
    (insertSorted after x l).Perm (x :: l) := by
  induction l with
  | nil => simp [insertSorted]
  | cons y ys ih =>
    simp only [insertSorted]
    split
    · exact ((ih.cons y).trans (List.Perm.swap x y ys))
    · exact List.Perm.refl _

theorem sortWith_perm (after : α → α → Bool) (l : List α) :
    (sortWith after l).Perm l := by
  induction l with
  | nil => exact List.Perm.refl _
  | cons x xs ih =>
    exact (insertSorted_perm after x (sortWith after xs)).trans (ih.cons x)

theorem insertSorted_pairwise {R : α → α → Prop} {after : α → α → Bool}
    (h1 : ∀ a b, after a b = false → R a b)
    (h2 : ∀ a b, after a b = true → R b a)
    (h3 : ∀ a b c, R a b → R b c → R a c)
    (x : α) (l : List α) (hl : l.Pairwise R) :
    (insertSorted after x l).Pairwise R := by
  induction l with
  | nil => simp [insertSorted]
  | cons y ys ih =>
    rcases List.pairwise_cons.mp hl with ⟨hy, hys⟩
    simp only [insertSorted]
    split
    · refine List.Pairwise.cons ?_ (ih hys)
      intro z hz
      rcases List.mem_cons.mp ((insertSorted_perm after x ys).mem_iff.mp hz) with
        hz | hz
      · subst hz
        exact h2 _ _ (by assumption)
      · exact hy z hz
    · refine List.Pairwise.cons ?_ hl
      intro z hz
      rcases List.mem_cons.mp hz with hz | hz
      · subst hz
        exact h1 _ _ (by simp_all)
      · exact h3 _ _ _ (h1 _ _ (by simp_all)) (hy z hz)

theorem sortWith_pairwise {R : α → α → Prop} {after : α → α → Bool}
    (h1 : ∀ a b, after a b = false → R a b)
    (h2 : ∀ a b, after a b = true → R b a)
    (h3 : ∀ a b c, R a b → R b c → R a c)
    (l : List α) : (sortWith after l).Pairwise R := by
  induction l with
  | nil => simp [sortWith]
  | cons x xs ih => exact insertSorted_pairwise h1 h2 h3 x _ ih

theorem insertSorted_filter {after : α → α → Bool} (p : α → Bool) (x : α)
    (hx : ∀ b, p x = true → p b = true → after x b = false) (l : List α) :
    (insertSorted after x l).filter p =
      if p x then x :: l.filter p else l.filter p := by
  induction l with
  | nil => by_cases hpx : p x = true <;> simp [insertSorted, hpx]
  | cons y ys ih =>
    simp only [insertSorted]
    by_cases hxy : after x y = true
    · rw [if_pos hxy]
      by_cases hpx : p x = true
      · have hpy : p y = false := by
          by_contra hpy
          have h0 := hx y hpx (by simpa using hpy)
          rw [h0] at hxy
          exact Bool.false_ne_true hxy
        simp [List.filter_cons, hpy, ih, hpx]
      · have hpx' : p x = false := by simpa using hpx
        simp [List.filter_cons, ih, hpx']
    · rw [if_neg hxy]
      by_cases hpx : p x = true <;> simp [List.filter_cons, hpx]

theorem sortWith_filter {after : α → α → Bool} (p : α → Bool)
    (hp : ∀ a b, p a = true → p b = true → after a b = false) (l : List α) :
    (sortWith after l).filter p = l.filter p := by
  induction l with
  | nil => rfl
  | cons x xs ih =>
    simp only [sortWith]
    rw [insertSorted_filter p x (fun b hx hb => hp x b hx hb) _]
    by_cases hpx : p x = true
    · simp [List.filter_cons, hpx, ih]
    · have hpx' : p x = false := by simpa using hpx
      simp [List.filter_cons, hpx', ih]

/-- Post metadata as stored in `env.all_posts` by `BlogPostDirective.run`
(`blogpostdirective.py`, lines 226-237): the fields of the blog node that the
aggregation layer reads, with the parsed `datetime` abstracted to the `Nat`
sort key `time`. -/
structure Post where
  title : String
  category : String
  tags : List String
  year : Nat
  time : Nat
  docname : String
deriving DecidableEq, Inhabited, Repr

/-- Ordering used by every `sorted(items, key=lambda x: x['time'], reverse=True)`
call: `x` goes after `y` exactly when `x` is strictly older. -/
def postAfter (x y : Post) : Bool := x.time < y.time

/-- Model of `d[k].append(p)` preceded by `if k not in d: d[k] = []` on a
Python dict `d` held as an association list in key-insertion order. -/
def dictAppend [DecidableEq κ] (k : κ) (p : Post) :
    List (κ × List Post) → List (κ × List Post)
  | [] => [(k, [p])]
  | (k', ps) :: rest =>
    if k' = k then (k', ps ++ [p]) :: rest else (k', ps) :: dictAppend k p rest

/-- Lookup of a key's bucket; absent keys give the empty bucket. -/
def dictGet [DecidableEq κ] (k : κ) : List (κ × List Post) → List Post
  | [] => []
  | (k', ps) :: rest => if k' = k then ps else dictGet k rest

/-- The grouping loops of `build_category_info` (key: `post_node['category']`)
and `build_archive_info` (key: `post_node['year']`): one `dictAppend` per post
in store order. -/
def groupByKey [DecidableEq κ] (key : Post → κ) (store : List Post) :
    List (κ × List Post) :=
  store.foldl (fun d p => dictAppend (key p) p d) []

/-- The grouping loop of `build_tag_info`: one `dictAppend` per tag occurrence
of each post, in store order (`for tag in post_node['tags']`). -/
def groupByTags (store : List Post) : List (String × List Post) :=
  store.foldl (fun d p => p.tags.foldl (fun d' t => dictAppend t p d') d) []

/-- The per-key sorting pass `d[key] = sorted(items, key=time, reverse=True)`
applied to every bucket of the dict. -/
def sortValues [DecidableEq κ] (d : List (κ × List Post)) :
    List (κ × List Post) :=
  d.map (fun kv => (kv.1, sortWith postAfter kv.2))

/-- Model of `build_category_info` (`__init__.py`, lines 66-108), restricted to
the returned dict: group the store by category, then sort every bucket by
descending time. -/
def build_category_info (store : List Post) : List (String × List Post) :=
  sortValues (groupByKey Post.category store)

/-- Model of `build_tag_info` (`__init__.py`, lines 111-152), restricted to the
returned dict: group the store by each tag occurrence, then sort every bucket
by descending time. -/
def build_tag_info (store : List Post) : List (String × List Post) :=
  sortValues (groupByTags store)

/-- Model of `build_archive_info` (`__init__.py`, lines 155-205): the by-year
dict with each bucket sorted by descending time, and the flattened list of all
posts sorted by descending time. -/
def build_archive_info (store : List Post) :
    List (Nat × List Post) × List Post :=
  (sortValues (groupByKey Post.year store), sortWith postAfter store)

/-- Store-order list of the occurrences of tag `k`: each post repeated once
per occurrence of `k` in its tag list, exactly what the `build_tag_info` loop
appends to bucket `k`. -/
def tagOccurrences (k : String) : List Post → List Post
  | [] => []
  | p :: ps => List.replicate (p.tags.count k) p ++ tagOccurrences k ps

theorem dictGet_dictAppend [DecidableEq κ] (k k' : κ) (p : Post)
    (d : List (κ × List Post)) :
    dictGet k (dictAppend k' p d) =
      if k' = k then dictGet k d ++ [p] else dictGet k d := by
  induction d with
  | nil => by_cases h : k' = k <;> simp [dictAppend, dictGet, h]
  | cons kv rest ih =>
    obtain ⟨j, ps⟩ := kv
    by_cases h1 : j = k'
    · subst h1
      by_cases h2 : j = k
      · subst h2
        simp [dictAppend, dictGet]
      · simp [dictAppend, dictGet, h2]
    · by_cases h2 : j = k
      · subst h2
        have h3 : ¬ (k' = j) := fun h => h1 h.symm
        simp [dictAppend, dictGet, h1, h3, ih]
      · simp [dictAppend, dictGet, h1, h2, ih]

theorem dictGet_groupByKey_aux [DecidableEq κ] (key : Post → κ) (k : κ)
    (store : List Post) (d : List (κ × List Post)) :
    dictGet k (store.foldl (fun d' p => dictAppend (key p) p d') d) =
      dictGet k d ++ store.filter (fun p => decide (key p = k)) := by
  induction store generalizing d with
  | nil => simp
  | cons p ps ih =>
    simp only [List.foldl_cons, ih, dictGet_dictAppend, List.filter_cons]
    by_cases h : key p = k <;> simp [h]

theorem dictGet_groupByKey [DecidableEq κ] (key : Post → κ) (k : κ)
    (store : List Post) :
    dictGet k (groupByKey key store) =
      store.filter (fun p => decide (key p = k)) := by
  simpa [dictGet] using dictGet_groupByKey_aux key k store []

theorem dictGet_tagsFold (p : Post) (k : String) (tags : List String)
    (d : List (String × List Post)) :
    dictGet k (tags.foldl (fun d' t => dictAppend t p d') d) =
      dictGet k d ++ List.replicate (tags.count k) p := by
  induction tags generalizing d with
  | nil => simp
  | cons t ts ih =>
    simp only [List.foldl_cons, ih, dictGet_dictAppend, List.count_cons]
    by_cases h : t = k
    · subst h
      simp [List.replicate_succ]
    · simp [h]

theorem dictGet_groupByTags_aux (k : String) (store : List Post)
    (d : List (String × List Post)) :
    dictGet k
        (store.foldl (fun d' p => p.tags.foldl (fun d'' t => dictAppend t p d'') d') d) =
      dictGet k d ++ tagOccurrences k store := by
  induction store generalizing d with
  | nil => simp [tagOccurrences]
  | cons p ps ih =>
    simp only [List.foldl_cons, ih, dictGet_tagsFold, tagOccurrences,
      List.append_assoc]

theorem dictGet_groupByTags (k : String) (store : List Post) :
    dictGet k (groupByTags store) = tagOccurrences k store := by
  simpa [dictGet] using dictGet_groupByTags_aux k store []

theorem dictGet_sortValues [DecidableEq κ] (k : κ) (d : List (κ × List Post)) :
    dictGet k (sortValues d) = sortWith postAfter (dictGet k d) := by
  induction d with
  | nil => rfl
  | cons kv rest ih =>
    obtain ⟨j, ps⟩ := kv
    simp only [sortValues, List.map_cons] at ih ⊢
    by_cases h : j = k <;> simp [dictGet, h, ih]

theorem sortTime_pairwise (l : List Post) :
    (sortWith postAfter l).Pairwise (fun a b => b.time ≤ a.time) := by
  refine sortWith_pairwise ?_ ?_ ?_ l
  · intro a b h
    exact Nat.le_of_not_lt (by simpa [postAfter] using h)
  · intro a b h
    exact Nat.le_of_lt (by simpa [postAfter] using h)
  · intro a b c h h'
    exact Nat.le_trans h' h

theorem sortTime_filter_time (l : List Post) (t : Nat) :
    (sortWith postAfter l).filter (fun p => decide (p.time = t)) =
      l.filter (fun p => decide (p.time = t)) := by
  refine sortWith_filter _ ?_ l
  intro a b ha hb
  simp only [decide_eq_true_eq] at ha hb
  simp [postAfter, ha, hb]

/-- C1: every by-category, by-tag and by-year bucket and the flattened list is
sorted by strictly descending-or-equal `time`, and posts with equal `time`
keep their store-insertion order — stated as: filtering any of these lists to
one `time` value yields exactly the corresponding store-order sublist. -/
theorem groupings_sorted_desc_stable (store : List Post) :
    (∀ c : String,
      (dictGet c (build_category_info store)).Pairwise (fun a b => b.time ≤ a.time) ∧
      ∀ t : Nat, (dictGet c (build_category_info store)).filter (fun p => decide (p.time = t)) =
        (store.filter (fun p => decide (p.category = c))).filter (fun p => decide (p.time = t))) ∧
    (∀ g : String,
      (dictGet g (build_tag_info store)).Pairwise (fun a b => b.time ≤ a.time) ∧
      ∀ t : Nat, (dictGet g (build_tag_info store)).filter (fun p => decide (p.time = t)) =
        (tagOccurrences g store).filter (fun p => decide (p.time = t))) ∧
    (∀ y : Nat,
      (dictGet y (build_archive_info store).1).Pairwise (fun a b => b.time ≤ a.time) ∧
      ∀ t : Nat, (dictGet y (build_archive_info store).1).filter (fun p => decide (p.time = t)) =
        (store.filter (fun p => decide (p.year = y))).filter (fun p => decide (p.time = t))) ∧
    ((build_archive_info store).2.Pairwise (fun a b => b.time ≤ a.time) ∧
      ∀ t : Nat, (build_archive_info store).2.filter (fun p => decide (p.time = t)) =
        store.filter (fun p => decide (p.time = t))) := by
  refine ⟨fun c => ?_, fun g => ?_, fun y => ?_, ?_⟩
  · rw [build_category_info, dictGet_sortValues, dictGet_groupByKey]
    exact ⟨sortTime_pairwise _, fun t => sortTime_filter_time _ t⟩
  · rw [build_tag_info, dictGet_sortValues, dictGet_groupByTags]
    exact ⟨sortTime_pairwise _, fun t => sortTime_filter_time _ t⟩
  · rw [build_archive_info, dictGet_sortValues, dictGet_groupByKey]
    exact ⟨sortTime_pairwise _, fun t => sortTime_filter_time _ t⟩
  · rw [build_archive_info]
    exact ⟨sortTime_pairwise _, fun t => sortTime_filter_time _ t⟩

theorem count_tagOccurrences (p : Post) (t : String) (store : List Post) :
    (tagOccurrences t store).count p = store.count p * p.tags.count t := by
  induction store with
  | nil => simp [tagOccurrences]
  | cons q qs ih =>
    simp only [tagOccurrences, List.count_append, List.count_cons, ih,
      List.count_replicate]
    by_cases h : q = p
    · subst h
      simp [Nat.add_mul, Nat.add_comm]
    · simp [h]

/-- C4 (amended): in the by-category, by-year and flattened views each post
occurs exactly as often as in the store, and in the by-tag view for tag `t`
exactly (store multiplicity × multiplicity of `t` in its tag list) times;
"exactly once per distinct tag" holds only for duplicate-free tag lists. -/
theorem post_multiplicity_in_groupings (store : List Post) (p : Post) :
    (dictGet p.category (build_category_info store)).count p = store.count p ∧
    (dictGet p.year (build_archive_info store).1).count p = store.count p ∧
    ((build_archive_info store).2).count p = store.count p ∧
    ∀ t : String,
      (dictGet t (build_tag_info store)).count p = store.count p * p.tags.count t := by
  refine ⟨?_, ?_, ?_, fun t => ?_⟩
  · rw [build_category_info, dictGet_sortValues, dictGet_groupByKey,
      (sortWith_perm postAfter _).count_eq p]
    exact List.count_filter (by simp)
  · rw [build_archive_info, dictGet_sortValues, dictGet_groupByKey,
      (sortWith_perm postAfter _).count_eq p]
    exact List.count_filter (by simp)
  · rw [build_archive_info, (sortWith_perm postAfter _).count_eq p]
  · rw [build_tag_info, dictGet_sortValues, dictGet_groupByTags,
      (sortWith_perm postAfter _).count_eq p]
    exact count_tagOccurrences p t store

/-- C4 counterexample: a store with one post whose tag list is `["a","a"]`
lists that post twice in the bucket of its single distinct tag `"a"`, not
exactly once as the claim states. -/
theorem duplicate_tag_double_listing :
    (dictGet "a" (build_tag_info [(⟨"t", "c", ["a", "a"], 2020, 5, "d"⟩ : Post)])).count
        (⟨"t", "c", ["a", "a"], 2020, 5, "d"⟩ : Post) = 2 ∧
      ([(⟨"t", "c", ["a", "a"], 2020, 5, "d"⟩ : Post)]).count
        (⟨"t", "c", ["a", "a"], 2020, 5, "d"⟩ : Post) = 1 ∧
      (⟨"t", "c", ["a", "a"], 2020, 5, "d"⟩ : Post).tags.dedup = ["a"] := by
  decide

/-- Navigation fields set on a blog node by `add_next_prev`; the relative URIs
built by `app.builder.get_relative_uri(node['docname'], target['docname'])`
are abstracted to the target's docname. -/
structure NavInfo where
  prev_text : String
  next_text : String
  next : String
  prev : String
deriving DecidableEq, Repr

/-- Body of the `add_next_prev` loop (`__init__.py`, lines 428-450) for a
match at index `i`: previous is `i+1`, wrapping to 0 past the oldest end with
the newest-wrap label; next is `i-1`, wrapping to the last index at the newest
end with the oldest-wrap label. -/
def navAt (flat : List Post) (i : Nat) : NavInfo :=
  let postmax := flat.length - 1
  let prevPair :=
    if i + 1 > postmax then (0, "&olarr; Newest") else (i + 1, "&larr; Previous")
  let nextPair :=
    if i = 0 then (postmax, "Oldest &orarr;") else (i - 1, "Next &rarr;")
  { prev_text := prevPair.2, next_text := nextPair.2,
    next := (flat.getD nextPair.1 default).docname,
    prev := (flat.getD prevPair.1 default).docname }

/-- Loop of `add_next_prev`: scan the whole flattened list and overwrite the
node's navigation fields at every index whose `time` equals the node's;
there is no `break`, so a later match overwrites an earlier one. -/
def addNextPrevAux (t : Nat) (flat : List Post) :
    Nat → List Post → Option NavInfo → Option NavInfo
  | _, [], acc => acc
  | i, p :: ps, acc =>
    addNextPrevAux t flat (i + 1) ps
      (if p.time = t then some (navAt flat i) else acc)

/-- Model of `add_next_prev` (`__init__.py`, lines 428-450) as a function of
the node's `time`: the only node field the loop reads is `node['time']`. -/
def add_next_prev (t : Nat) (flat : List Post) : Option NavInfo :=
  addNextPrevAux t flat 0 flat none

/-- Index of the last element with the given `time`, the match that wins in
the `add_next_prev` loop. -/
def lastTimeIdx (t : Nat) : List Post → Option Nat
  | [] => none
  | p :: ps =>
    match lastTimeIdx t ps with
    | some k => some (k + 1)
    | none => if p.time = t then some 0 else none

theorem addNextPrevAux_eq (t : Nat) (flat l : List Post) (i : Nat)
    (acc : Option NavInfo) :
    addNextPrevAux t flat i l acc =
      match lastTimeIdx t l with
      | some k => some (navAt flat (i + k))
      | none => acc := by
  induction l generalizing i acc with
  | nil => rfl
  | cons p ps ih =>
    simp only [addNextPrevAux, lastTimeIdx, ih]
    cases h : lastTimeIdx t ps with
    | some k =>
      simp only []
      rw [Nat.add_comm k 1, ← Nat.add_assoc]
    | none => by_cases hp : p.time = t <;> simp [hp]

theorem lastTimeIdx_none_iff (t : Nat) (l : List Post) :
    lastTimeIdx t l = none ↔ ∀ p ∈ l, p.time ≠ t := by
  induction l with
  | nil => simp [lastTimeIdx]
  | cons p ps ih =>
    simp only [lastTimeIdx]
    cases h : lastTimeIdx t ps with
    | some k =>
      simp only [reduceCtorEq, false_iff]
      intro hall
      have h2 := ih.mpr (fun q hq => hall q (List.mem_cons_of_mem p hq))
      rw [h2] at h
      cases h
    | none =>
      have hps := ih.mp h
      by_cases hp : p.time = t
      · simp [hp]
      · simp only [if_neg hp]
        constructor
        · intro _ q hq
          rcases List.mem_cons.mp hq with rfl | hq
          · exact hp
          · exact hps q hq
        · intro _
          trivial

theorem lastTimeIdx_spec (t : Nat) (l : List Post) (k : Nat)
    (h : lastTimeIdx t l = some k) :
    k < l.length ∧ (l.getD k default).time = t ∧
      ∀ j, k < j → j < l.length → (l.getD j default).time ≠ t := by
  induction l generalizing k with
  | nil => cases h
  | cons p ps ih =>
    rw [lastTimeIdx] at h
    cases h2 : lastTimeIdx t ps with
    | some m =>
      rw [h2] at h
      obtain rfl : m + 1 = k := by cases h; rfl
      obtain ⟨hlen, hget, hafter⟩ := ih m h2
      refine ⟨by simpa using Nat.succ_lt_succ hlen, by simpa using hget, ?_⟩
      intro j hj hjlen
      cases j with
      | zero => omega
      | succ j' => simpa using hafter j' (by omega) (by simpa using hjlen)
    | none =>
      rw [h2] at h
      by_cases hp : p.time = t
      · rw [if_pos hp] at h
        obtain rfl : 0 = k := by cases h; rfl
        refine ⟨by simp, by simpa using hp, ?_⟩
        intro j hj hjlen
        cases j with
        | zero => omega
        | succ j' =>
          have hall := (lastTimeIdx_none_iff t ps).mp h2
          have hj' : j' < ps.length := by simpa using hjlen
          have hmem : ps.getD j' default ∈ ps := by
            rw [List.getD_eq_getElem ps default hj']
            exact List.getElem_mem hj'
          simpa using hall _ hmem
      · rw [if_neg hp] at h
        cases h

/-- C2 counterexample: for the two-post list `[A, B]` with `A.time = B.time = 5`,
the links actually computed come from the second (last) occurrence, index 1,
and differ from those the first occurrence at index 0 would give, refuting
"links computed from the first occurrence of that timestamp". -/
theorem nav_shared_time_not_first_occurrence :
    add_next_prev 5
        [(⟨"a", "c", [], 2020, 5, "a"⟩ : Post), (⟨"b", "c", [], 2020, 5, "b"⟩ : Post)] =
      some (navAt
        [(⟨"a", "c", [], 2020, 5, "a"⟩ : Post), (⟨"b", "c", [], 2020, 5, "b"⟩ : Post)] 1) ∧
    navAt [(⟨"a", "c", [], 2020, 5, "a"⟩ : Post), (⟨"b", "c", [], 2020, 5, "b"⟩ : Post)] 1 ≠
      navAt [(⟨"a", "c", [], 2020, 5, "a"⟩ : Post), (⟨"b", "c", [], 2020, 5, "b"⟩ : Post)] 0 := by
  decide

/-- C2 (amended): the linker locates the post by exact `time` equality and,
because the loop overwrites on every match, all posts sharing a timestamp get
the same links, computed from the last occurrence of that timestamp: the
result is `navAt` at `lastTimeIdx`, which is a valid index holding that time
with no later occurrence, and is `none` exactly when no entry matches. -/
theorem nav_links_from_last_occurrence (t : Nat) (flat : List Post) :
    add_next_prev t flat = (lastTimeIdx t flat).map (fun k => navAt flat k) ∧
    (lastTimeIdx t flat = none ↔ ∀ p ∈ flat, p.time ≠ t) ∧
    (∀ k, lastTimeIdx t flat = some k →
      k < flat.length ∧ (flat.getD k default).time = t ∧
        ∀ j, k < j → j < flat.length → (flat.getD j default).time ≠ t) := by
  refine ⟨?_, lastTimeIdx_none_iff t flat, fun k hk => lastTimeIdx_spec t flat k hk⟩
  rw [add_next_prev, addNextPrevAux_eq]
  cases h : lastTimeIdx t flat with
  | some k => simp
  | none => simp

/-- Witness for `nav_links_from_last_occurrence` at a concrete two-post list
sharing time 5: the last occurrence is index 1. -/
theorem nav_links_from_last_occurrence_witness :
    1 < ([(⟨"a", "c", [], 2020, 5, "a"⟩ : Post), (⟨"b", "c", [], 2020, 5, "b"⟩ : Post)] : List Post).length ∧
      (([(⟨"a", "c", [], 2020, 5, "a"⟩ : Post), (⟨"b", "c", [], 2020, 5, "b"⟩ : Post)] : List Post).getD 1 default).time = 5 ∧
      ∀ j, 1 < j →
        j < ([(⟨"a", "c", [], 2020, 5, "a"⟩ : Post), (⟨"b", "c", [], 2020, 5, "b"⟩ : Post)] : List Post).length →
        (([(⟨"a", "c", [], 2020, 5, "a"⟩ : Post), (⟨"b", "c", [], 2020, 5, "b"⟩ : Post)] : List Post).getD j default).time ≠ 5 :=
  (nav_links_from_last_occurrence 5
    [(⟨"a", "c", [], 2020, 5, "a"⟩ : Post), (⟨"b", "c", [], 2020, 5, "b"⟩ : Post)]).2.2 1
    (by decide)

/-- C3: on a three-post list with strictly decreasing times, the newest post's
next wraps to the oldest with the oldest-wrap label, the oldest post's
previous wraps to the newest with the newest-wrap label, and the middle post
links to its chronological neighbours with the non-wrap labels. -/
theorem nav_wraparound_three_posts (p1 p2 p3 : Post)
    (h32 : p3.time < p2.time) (h21 : p2.time < p1.time) :
    add_next_prev p1.time [p1, p2, p3] =
      some { prev_text := "&larr; Previous", next_text := "Oldest &orarr;",
             next := p3.docname, prev := p2.docname } ∧
    add_next_prev p2.time [p1, p2, p3] =
      some { prev_text := "&larr; Previous", next_text := "Next &rarr;",
             next := p1.docname, prev := p3.docname } ∧
    add_next_prev p3.time [p1, p2, p3] =
      some { prev_text := "&olarr; Newest", next_text := "Next &rarr;",
             next := p2.docname, prev := p1.docname } := by
  have h31 : p3.time < p1.time := Nat.lt_trans h32 h21
  have n21 : p2.time ≠ p1.time := Nat.ne_of_lt h21
  have n31 : p3.time ≠ p1.time := Nat.ne_of_lt h31
  have n32 : p3.time ≠ p2.time := Nat.ne_of_lt h32
  have n12 : p1.time ≠ p2.time := n21.symm
  have n13 : p1.time ≠ p3.time := n31.symm
  have n23 : p2.time ≠ p3.time := n32.symm
  refine ⟨?_, ?_, ?_⟩ <;>
    simp [add_next_prev, addNextPrevAux, navAt, n21, n31, n32, n12, n13, n23]

/-- Witness for `nav_wraparound_three_posts` at three concrete posts with
times 3 > 2 > 1. -/
theorem nav_wraparound_three_posts_witness :
    add_next_prev (⟨"t1", "c", [], 2020, 3, "d1"⟩ : Post).time
        [(⟨"t1", "c", [], 2020, 3, "d1"⟩ : Post), (⟨"t2", "c", [], 2020, 2, "d2"⟩ : Post),
          (⟨"t3", "c", [], 2020, 1, "d3"⟩ : Post)] =
      some { prev_text := "&larr; Previous", next_text := "Oldest &orarr;",
             next := "d3", prev := "d2" } ∧
    add_next_prev (⟨"t2", "c", [], 2020, 2, "d2"⟩ : Post).time
        [(⟨"t1", "c", [], 2020, 3, "d1"⟩ : Post), (⟨"t2", "c", [], 2020, 2, "d2"⟩ : Post),
          (⟨"t3", "c", [], 2020, 1, "d3"⟩ : Post)] =
      some { prev_text := "&larr; Previous", next_text := "Next &rarr;",
             next := "d1", prev := "d3" } ∧
    add_next_prev (⟨"t3", "c", [], 2020, 1, "d3"⟩ : Post).time
        [(⟨"t1", "c", [], 2020, 3, "d1"⟩ : Post), (⟨"t2", "c", [], 2020, 2, "d2"⟩ : Post),
          (⟨"t3", "c", [], 2020, 1, "d3"⟩ : Post)] =
      some { prev_text := "&olarr; Newest", next_text := "Next &rarr;",
             next := "d2", prev := "d1" } :=
  nav_wraparound_three_posts
    (⟨"t1", "c", [], 2020, 3, "d1"⟩ : Post) (⟨"t2", "c", [], 2020, 2, "d2"⟩ : Post)
    (⟨"t3", "c", [], 2020, 1, "d3"⟩ : Post) (by decide) (by decide)

/-- Python string comparison, lexicographic on Unicode code points, used by
`sorted(...)` over the grouping-dict keys. -/
def lexLt : List Char → List Char → Bool
  | [], [] => false
  | [], _ :: _ => true
  | _ :: _, [] => false
  | a :: as, b :: bs =>
    if a.toNat < b.toNat then true
    else if b.toNat < a.toNat then false
    else lexLt as bs

/-- Key ordering for `sorted(keys)` via `sortWith`: key `x` goes after key `y`
exactly when `y` compares strictly below `x` as a Python string. -/
def strAfter (x y : String) : Bool := lexLt y.data x.data

/-- Modelled from the spec: `env.new_serialno(kind)` (sphinx host code, not in
src) is a per-build, per-kind monotonically increasing counter issuing
consecutive values from 0.  `assignLoop` is the assignment loop
`for key in sorted(keys): ids[key] = '<pre>-%d' % env.new_serialno(kind)`
run on an already-sorted key list, threading that counter. -/
def assignLoop (pre : String) : List String → Nat → List (String × String) × Nat
  | [], c => ([], c)
  | k :: ks, c =>
    let rest := assignLoop pre ks (c + 1)
    ((k, pre ++ "-" ++ toString c) :: rest.1, rest.2)

/-- Model of the identifier-assignment block shared by `build_category_info`
(lines 103-107), `build_tag_info` (lines 147-151) and `build_archive_info`
(lines 200-204): when no id table exists for the kind
(`not hasattr(env, ...)`), build one over the keys in ascending sorted order;
otherwise leave the existing table and the counter untouched. -/
def ensure_ids (pre : String) (existing : Option (List (String × String)))
    (keys : List String) (c : Nat) : List (String × String) × Nat :=
  match existing with
  | some ids => (ids, c)
  | none => assignLoop pre (sortWith strAfter keys) c

/-- C5: on the first assignment for a kind the keys are taken in ascending
sorted order with consecutive counter values — for any arrangement of the
keys `"b"`, `"a"`, `"c"` the ids go to `a`, then `b`, then `c` — and the
counter always advances by exactly the number of keys. -/
theorem first_id_assignment_sorted_keys :
    (∀ l : List String, l.Perm ["b", "a", "c"] →
      ensure_ids "category" none l 0 =
        ([("a", "category-0"), ("b", "category-1"), ("c", "category-2")], 3)) ∧
    ∀ pre : String, ∀ keys : List String, ∀ c : Nat,
      (assignLoop pre keys c).2 = c + keys.length := by
  constructor
  · intro l h
    have hlen : l.length = 3 := by simpa using h.length_eq
    obtain ⟨x, y, z, rfl⟩ := List.length_eq_three.mp hlen
    have hx : x ∈ (["b", "a", "c"] : List String) := h.mem_iff.mp (by simp)
    have hy : y ∈ (["b", "a", "c"] : List String) := h.mem_iff.mp (by simp)
    have hz : z ∈ (["b", "a", "c"] : List String) := h.mem_iff.mp (by simp)
    simp only [List.mem_cons, List.not_mem_nil, or_false] at hx hy hz
    rcases hx with rfl | rfl | rfl <;> rcases hy with rfl | rfl | rfl <;>
      rcases hz with rfl | rfl | rfl <;>
      first
        | exact absurd h (by decide)
        | decide
  · intro pre keys c
    induction keys generalizing c with
    | nil => rfl
    | cons k ks ih =>
      simp only [assignLoop, ih, List.length_cons]
      omega

/-- Witness for `first_id_assignment_sorted_keys` at the input order
`["b", "a", "c"]`. -/
theorem first_id_assignment_sorted_keys_witness :
    ensure_ids "category" none ["b", "a", "c"] 0 =
      ([("a", "category-0"), ("b", "category-1"), ("c", "category-2")], 3) :=
  first_id_assignment_sorted_keys.1 ["b", "a", "c"] (by decide)

/-- C6 counterexample: with an id table already present for the category kind,
a later call whose key set contains the previously unseen key `"b"` assigns
it nothing — its lookup stays `none` — refuting "assigns new identifiers to
keys not previously seen". -/
theorem later_call_ignores_new_keys :
    (ensure_ids "category" (some [("a", "category-0")]) ["a", "b"] 1).1.lookup "b" =
        none ∧
      ([("a", "category-0")] : List (String × String)).lookup "b" = none := by
  decide

/-- C6 (amended): identifier assignment is compute-once, first caller wins:
a call that finds an existing table returns it entirely unchanged with the
counter untouched — assigning nothing, not even to unseen keys — while the
first call assigns ids to exactly the sorted keys. -/
theorem id_assignment_first_caller_wins :
    (∀ pre : String, ∀ ids : List (String × String), ∀ keys : List String,
      ∀ c : Nat, ensure_ids pre (some ids) keys c = (ids, c)) ∧
    ∀ pre : String, ∀ keys : List String, ∀ c : Nat,
      (ensure_ids pre none keys c).1.map Prod.fst = sortWith strAfter keys := by
  refine ⟨fun pre ids keys c => rfl, fun pre keys c => ?_⟩
  rw [ensure_ids]
  generalize sortWith strAfter keys = ks
  induction ks generalizing c with
  | nil => rfl
  | cons k t ih => simp [assignLoop, ih]

/-- Singleton-tracking attributes that the listing directives set on the
sphinx build environment (`category_docname`, `tag_docname`,
`archive_docname`, `recent_docname`); `none` models the attribute not yet
existing (`not hasattr(env, ...)`). -/
structure BuildEnv where
  category_docname : Option String
  tag_docname : Option String
  archive_docname : Option String
  recent_docname : Option String
deriving DecidableEq, Repr

/-- Model of `BlogCategoryDirective.run` (`blogpostdirective.py`, lines
251-260): record the docname on first use, raise
`ValueError('Only one category list is supported!')` on a second use. -/
def blog_category_run (env : BuildEnv) (doc : String) : Except String BuildEnv :=
  match env.category_docname with
  | none => Except.ok { env with category_docname := some doc }
  | some _ => Except.error "Only one category list is supported!"

/-- Model of `BlogTagDirective.run` (lines 268-277). -/
def blog_tag_run (env : BuildEnv) (doc : String) : Except String BuildEnv :=
  match env.tag_docname with
  | none => Except.ok { env with tag_docname := some doc }
  | some _ => Except.error "Only one tag list is supported!"

/-- Model of `BlogArchiveDirective.run` (lines 298-307). -/
def blog_archive_run (env : BuildEnv) (doc : String) : Except String BuildEnv :=
  match env.archive_docname with
  | none => Except.ok { env with archive_docname := some doc }
  | some _ => Except.error "Only one archive list is supported!"

/-- Model of `BlogRecentDirective.run` (lines 318-333), restricted to the
singleton bookkeeping. -/
def blog_recent_run (env : BuildEnv) (doc : String) : Except String BuildEnv :=
  match env.recent_docname with
  | none => Except.ok { env with recent_docname := some doc }
  | some _ => Except.error "Recent posts can only be inserted once!"

/-- C7: whenever the build already holds one categories-listing (tags-listing,
archive-listing, recent-posts) directive, a second occurrence of the same
directive raises its configuration error; for the categories listing the
error message carries the text "Only one category list is supported". -/
theorem singleton_directive_second_raises (env : BuildEnv) (d d' : String) :
    (env.category_docname.isSome →
      blog_category_run env d' =
        Except.error "Only one category list is supported!") ∧
    (env.tag_docname.isSome →
      blog_tag_run env d' = Except.error "Only one tag list is supported!") ∧
    (env.archive_docname.isSome →
      blog_archive_run env d' =
        Except.error "Only one archive list is supported!") ∧
    (env.recent_docname.isSome →
      blog_recent_run env d' =
        Except.error "Recent posts can only be inserted once!") ∧
    (env.category_docname = none →
      blog_category_run env d =
          Except.ok { env with category_docname := some d } ∧
        blog_category_run { env with category_docname := some d } d' =
          Except.error "Only one category list is supported!") ∧
    "Only one category list is supported".data.isPrefixOf
        "Only one category list is supported!".data = true := by
  refine ⟨?_, ?_, ?_, ?_, ?_, by decide⟩
  · intro h
    cases hc : env.category_docname with
    | none => simp [hc] at h
    | some v => simp [blog_category_run, hc]
  · intro h
    cases hc : env.tag_docname with
    | none => simp [hc] at h
    | some v => simp [blog_tag_run, hc]
  · intro h
    cases hc : env.archive_docname with
    | none => simp [hc] at h
    | some v => simp [blog_archive_run, hc]
  · intro h
    cases hc : env.recent_docname with
    | none => simp [hc] at h
    | some v => simp [blog_recent_run, hc]
  · intro h
    exact ⟨by simp [blog_category_run, h], by simp [blog_category_run]⟩

/-- Witness for `singleton_directive_second_raises`: a build environment that
already holds all four singleton directives rejects each second occurrence,
and a fresh environment accepts one categories listing then rejects the next. -/
theorem singleton_directive_second_raises_witness :
    blog_category_run ⟨some "p1", some "p2", some "p3", some "p4"⟩ "x" =
        Except.error "Only one category list is supported!" ∧
      blog_tag_run ⟨some "p1", some "p2", some "p3", some "p4"⟩ "x" =
        Except.error "Only one tag list is supported!" ∧
      blog_archive_run ⟨some "p1", some "p2", some "p3", some "p4"⟩ "x" =
        Except.error "Only one archive list is supported!" ∧
      blog_recent_run ⟨some "p1", some "p2", some "p3", some "p4"⟩ "x" =
        Except.error "Recent posts can only be inserted once!" ∧
      blog_category_run ⟨none, none, none, none⟩ "p1" =
          Except.ok ⟨some "p1", none, none, none⟩ ∧
        blog_category_run ⟨some "p1", none, none, none⟩ "x" =
          Except.error "Only one category list is supported!" :=
  ⟨(singleton_directive_second_raises
      ⟨some "p1", some "p2", some "p3", some "p4"⟩ "p1" "x").1 (by decide),
    (singleton_directive_second_raises
      ⟨some "p1", some "p2", some "p3", some "p4"⟩ "p1" "x").2.1 (by decide),
    (singleton_directive_second_raises
      ⟨some "p1", some "p2", some "p3", some "p4"⟩ "p1" "x").2.2.1 (by decide),
    (singleton_directive_second_raises
      ⟨some "p1", some "p2", some "p3", some "p4"⟩ "p1" "x").2.2.2.1 (by decide),
    (singleton_directive_second_raises
      ⟨none, none, none, none⟩ "p1" "x").2.2.2.2.1 rfl⟩

/-- Parsed timestamp fields produced by the time option of a post directive. -/
structure DateTime where
  day : Nat
  month : Nat
  year : Nat
  hour : Nat
  minute : Nat
  second : Nat
deriving DecidableEq, Repr

/-- Modelled from the spec: `datetime.strptime(value, '%d.%m.%Y, %H:%M:%S')`
(Python standard library, outside this repository) for the fixed format
"DD.MM.YYYY, HH:MM:SS" — two-digit day, month, hour, minute and second, a
four-digit year, the literal separators, and range checks; any other shape
fails to parse. -/
def parseTime (s : String) : Option DateTime :=
  match s.data with
  | [d1, d2, '.', m1, m2, '.', y1, y2, y3, y4, ',', ' ',
      h1, h2, ':', n1, n2, ':', e1, e2] =>
    if d1.isDigit && d2.isDigit && m1.isDigit && m2.isDigit && y1.isDigit &&
        y2.isDigit && y3.isDigit && y4.isDigit && h1.isDigit && h2.isDigit &&
        n1.isDigit && n2.isDigit && e1.isDigit && e2.isDigit then
      let day := (d1.toNat - 48) * 10 + (d2.toNat - 48)
      let month := (m1.toNat - 48) * 10 + (m2.toNat - 48)
      let year := ((y1.toNat - 48) * 10 + (y2.toNat - 48)) * 100 +
        (y3.toNat - 48) * 10 + (y4.toNat - 48)
      let hour := (h1.toNat - 48) * 10 + (h2.toNat - 48)
      let minute := (n1.toNat - 48) * 10 + (n2.toNat - 48)
      let second := (e1.toNat - 48) * 10 + (e2.toNat - 48)
      if 1 ≤ day ∧ day ≤ 31 ∧ 1 ≤ month ∧ month ≤ 12 ∧ hour ≤ 23 ∧
          minute ≤ 59 ∧ second ≤ 59 then
        some ⟨day, month, year, hour, minute, second⟩
      else none
    else none
  | _ => none

/-- Chronological sort key of a parsed timestamp: `datetime` values compare
lexicographically on (year, month, day, hour, minute, second). -/
def DateTime.key (t : DateTime) : Nat :=
  ((((t.year * 13 + t.month) * 32 + t.day) * 24 + t.hour) * 60 + t.minute) * 60 +
    t.second

/-- Options of a post directive that feed the store entry. -/
structure BlogOptions where
  title : String
  category : String
  tags : List String
  time : String
  docname : String
deriving DecidableEq, Repr

/-- Model of `BlogPostDirective.run` (`blogpostdirective.py`, lines 191-243),
restricted to the store effect: `datetime.strptime` runs at line 200, before
the `env.all_posts.append` at line 228, so a parse failure propagates with
the store untouched, while success appends exactly one entry at the end of
the store. -/
def blog_post_run (store : List Post) (opts : BlogOptions) :
    List Post × Except String Post :=
  match parseTime opts.time with
  | none =>
    (store,
      Except.error "time data does not match format %d.%m.%Y, %H:%M:%S")
  | some t =>
    let post : Post :=
      { title := opts.title, category := opts.category, tags := opts.tags,
        year := t.year, time := t.key, docname := opts.docname }
    (store ++ [post], Except.ok post)

/-- C8: when the time option fails to parse under the fixed format, the post
directive raises and the raise precedes the append, so the store comes back
unchanged and no post is produced. -/
theorem malformed_time_aborts_store_unchanged (store : List Post)
    (opts : BlogOptions) (h : parseTime opts.time = none) :
    (blog_post_run store opts).1 = store ∧
      (blog_post_run store opts).2 =
        Except.error "time data does not match format %d.%m.%Y, %H:%M:%S" := by
  rw [blog_post_run, h]
  exact ⟨rfl, rfl⟩

/-- Witness for `malformed_time_aborts_store_unchanged` at the malformed time
string "2020-01-01" against a one-post store. -/
theorem malformed_time_aborts_store_unchanged_witness :
    (blog_post_run [(⟨"t", "c", [], 2020, 5, "d"⟩ : Post)]
          ⟨"t2", "c2", ["x"], "2020-01-01", "d2"⟩).1 =
        [(⟨"t", "c", [], 2020, 5, "d"⟩ : Post)] ∧
      (blog_post_run [(⟨"t", "c", [], 2020, 5, "d"⟩ : Post)]
          ⟨"t2", "c2", ["x"], "2020-01-01", "d2"⟩).2 =
        Except.error "time data does not match format %d.%m.%Y, %H:%M:%S" :=
  malformed_time_aborts_store_unchanged [(⟨"t", "c", [], 2020, 5, "d"⟩ : Post)]
    ⟨"t2", "c2", ["x"], "2020-01-01", "d2"⟩ (by decide)

/-- Character-list core of `text.rsplit(' ', 1)`: `some pre` with `pre` the
part before the last space when the text holds a space, `none` otherwise. -/
def beforeLastSpace : List Char → Option (List Char)
  | [] => none
  | c :: cs =>
    match beforeLastSpace cs with
    | some pre => some (c :: pre)
    | none => if c = ' ' then some [] else none

/-- Model of `text.rsplit(' ', 1)[0]`: the part before the last space, or the
whole text when it has no space. -/
def rsplitHead (cs : List Char) : List Char :=
  match beforeLastSpace cs with
  | some pre => pre
  | none => cs

/-- Model of `shorten_text` (`blogpostdirective.py`, lines 26-51, duplicated
in `blogpost.py`, lines 64-89): text within the limit passes unchanged;
longer text is sliced to the limit (`text[:length]`, modelled on the
character list), stripped back to the last space and suffixed. -/
def shorten_text (text : String) (length : Nat) (suffix : String) : String :=
  if text.length ≤ length then text
  else String.mk (rsplitHead (text.data.take length)) ++ suffix

/-- Index of the last space in a character list, the way the spec phrases the
cut point ("the last space before character 50"). -/
def lastSpaceIdx : List Char → Option Nat
  | [] => none
  | c :: cs =>
    match lastSpaceIdx cs with
    | some i => some (i + 1)
    | none => if c = ' ' then some 0 else none

theorem beforeLastSpace_eq_take (cs : List Char) :
    beforeLastSpace cs = (lastSpaceIdx cs).map (fun i => cs.take i) := by
  induction cs with
  | nil => rfl
  | cons c cs ih =>
    simp only [beforeLastSpace, lastSpaceIdx, ih]
    cases h : lastSpaceIdx cs with
    | some i => simp [List.take_succ_cons]
    | none => by_cases hc : c = ' ' <;> simp [hc]

theorem lastSpaceIdx_none_iff (cs : List Char) :
    lastSpaceIdx cs = none ↔ ∀ c ∈ cs, c ≠ ' ' := by
  induction cs with
  | nil => simp [lastSpaceIdx]
  | cons c cs ih =>
    simp only [lastSpaceIdx]
    cases h : lastSpaceIdx cs with
    | some i =>
      simp only [reduceCtorEq, false_iff]
      intro hall
      have h2 := ih.mpr (fun q hq => hall q (List.mem_cons_of_mem c hq))
      rw [h2] at h
      cases h
    | none =>
      have hcs := ih.mp h
      by_cases hc : c = ' '
      · simp [hc]
      · simp only [if_neg hc]
        constructor
        · intro _ q hq
          rcases List.mem_cons.mp hq with rfl | hq
          · exact hc
          · exact hcs q hq
        · intro _
          trivial

theorem lastSpaceIdx_spec (cs : List Char) (i : Nat)
    (h : lastSpaceIdx cs = some i) :
    i < cs.length ∧ cs.getD i 'x' = ' ' ∧
      ∀ j, i < j → j < cs.length → cs.getD j 'x' ≠ ' ' := by
  induction cs generalizing i with
  | nil => cases h
  | cons c cs ih =>
    rw [lastSpaceIdx] at h
    cases h2 : lastSpaceIdx cs with
    | some m =>
      rw [h2] at h
      obtain rfl : m + 1 = i := by cases h; rfl
      obtain ⟨hlen, hget, hafter⟩ := ih m h2
      refine ⟨by simpa using Nat.succ_lt_succ hlen, by simpa using hget, ?_⟩
      intro j hj hjlen
      cases j with
      | zero => omega
      | succ j' => simpa using hafter j' (by omega) (by simpa using hjlen)
    | none =>
      rw [h2] at h
      by_cases hc : c = ' '
      · rw [if_pos hc] at h
        obtain rfl : 0 = i := by cases h; rfl
        refine ⟨by simp, by simpa using hc, ?_⟩
        intro j hj hjlen
        cases j with
        | zero => omega
        | succ j' =>
          have hall := (lastSpaceIdx_none_iff cs).mp h2
          have hj' : j' < cs.length := by simpa using hjlen
          have hmem : cs.getD j' 'x' ∈ cs := by
            rw [List.getD_eq_getElem cs 'x' hj']
            exact List.getElem_mem hj'
          simpa using hall _ hmem
      · rw [if_neg hc] at h
        cases h

/-- C9: with limit 50 a text of at most 50 characters is returned unchanged;
a 51-character text is sliced to its first 50 characters and cut at the last
space of that slice (the greatest space index, with no space after it) before
the "..." suffix is appended; and a concrete 51-character input shows the
result can exceed 50 characters because of the suffix. -/
theorem shorten_text_spec :
    (∀ text : String, text.length ≤ 50 → shorten_text text 50 "..." = text) ∧
    (∀ text : String, ∀ i : Nat, text.length = 51 →
      lastSpaceIdx (text.data.take 50) = some i →
      shorten_text text 50 "..." =
          String.mk ((text.data.take 50).take i) ++ "..." ∧
        (text.data.take 50).getD i 'x' = ' ' ∧
        ∀ j, i < j → j < 50 → (text.data.take 50).getD j 'x' ≠ ' ') ∧
    shorten_text (String.mk (List.replicate 49 'a' ++ [' ', 'b'])) 50 "..." =
        String.mk (List.replicate 49 'a') ++ "..." ∧
      (String.mk (List.replicate 49 'a' ++ [' ', 'b'])).length = 51 ∧
      (shorten_text (String.mk (List.replicate 49 'a' ++ [' ', 'b'])) 50
          "...").length = 52 := by
  refine ⟨fun text h => by rw [shorten_text, if_pos h], ?_, by decide, by decide,
    by decide⟩
  intro text i hlen hsp
  have hdata : text.data.length = 51 := hlen
  have hnot : ¬ text.length ≤ 50 := by
    rw [String.length] at hlen ⊢
    omega
  have htake : (text.data.take 50).length = 50 := by
    rw [List.length_take]
    omega
  obtain ⟨hilen, hget, hafter⟩ := lastSpaceIdx_spec (text.data.take 50) i hsp
  rw [htake] at hilen
  refine ⟨?_, hget, ?_⟩
  · rw [shorten_text, if_neg hnot, rsplitHead, beforeLastSpace_eq_take, hsp]
    rfl
  · intro j hj hjlen
    exact hafter j hj (by omega)

/-- Witness for `shorten_text_spec`: a 5-character text is unchanged and the
concrete 51-character text with its last space at index 49 is cut there. -/
theorem shorten_text_spec_witness :
    shorten_text "short" 50 "..." = "short" ∧
      shorten_text (String.mk (List.replicate 49 'a' ++ [' ', 'b'])) 50 "..." =
        String.mk
            (((String.mk (List.replicate 49 'a' ++ [' ', 'b'])).data.take 50).take
              49) ++ "..." :=
  ⟨shorten_text_spec.1 "short" (by decide),
    (shorten_text_spec.2.1 (String.mk (List.replicate 49 'a' ++ [' ', 'b'])) 49
        (by decide) (by decide)).1⟩

/-- Splitting a character list on commas: model of Python `s.split(',')`,
which yields one (possibly empty) piece per comma-separated segment. -/
def splitCommas : List Char → List (List Char)
  | [] => [[]]
  | c :: cs =>
    let rest := splitCommas cs
    if c = ',' then [] :: rest
    else
      match rest with
      | r :: rs => (c :: r) :: rs
      | [] => [[c]]

/-- Python `str.strip()` whitespace test (space, tab, newline, carriage
return, vertical tab, form feed). -/
def isPySpace (c : Char) : Bool :=
  c == ' ' || c == '\t' || c == '\n' || c == '\r' || c == '\x0b' || c == '\x0c'

/-- Python `str.strip()`: drop whitespace from both ends. -/
def stripChars (cs : List Char) : List Char :=
  ((cs.dropWhile isPySpace).reverse.dropWhile isPySpace).reverse

/-- Model of `cvs_to_list` (`blogpostdirective.py`, lines 54-71): a missing
argument gives the empty list; otherwise split on commas and strip and
lower-case every piece (`[i.strip().lower() for i in argument.split(',')]`),
keeping order and duplicates.  Lower-casing is modelled on ASCII via
`Char.toLower`. -/
def cvs_to_list (argument : Option String) : List String :=
  match argument with
  | none => []
  | some s =>
    (splitCommas s.data).map (fun i => String.mk ((stripChars i).map Char.toLower))

/-- C10: tag parsing of " A, b ,C" yields ["a", "b", "c"] (split on commas,
trimmed, lower-cased, in input order), a missing argument yields [], repeated
values are kept ("a,a" gives ["a", "a"]), and in general the output keeps one
entry per comma-separated piece (order-preserving, no deduplication). -/
theorem cvs_to_list_spec :
    cvs_to_list (some " A, b ,C") = ["a", "b", "c"] ∧
      cvs_to_list none = [] ∧
      cvs_to_list (some "a,a") = ["a", "a"] ∧
      ∀ s : String,
        (cvs_to_list (some s)).length = (splitCommas s.data).length := by
  refine ⟨by decide, rfl, by decide, fun s => ?_⟩
  rw [cvs_to_list, List.length_map]
